import Mathlib

/-!
Shallow embedding of the SpeechToText repository's audio pipeline.

Audio sample buffers are modelled as lists of real numbers (`List ℝ`), as the
claims under consideration are about the exact real-arithmetic behaviour of the
RMS normalization, chunking and text transformations.  The external libraries
(librosa's resampler, the pretrained speech model) are modelled as abstract
function parameters: the repository's code only composes them.  Python
exceptions are modelled with `Except String`.
-/

namespace SpeechToText

/-- An audio sample buffer: an array of floating-point amplitudes. -/
abbrev Audio := List ℝ

namespace AudioPreprocessor

/-- Default `target_sample_rate` from `AudioPreprocessor.__init__`. -/
def defaultTargetSampleRate : Nat := 16000

/-- `np.sqrt(np.mean(audio**2))`: root-mean-square of the buffer
(`normalize_audio`, audio_preprocessor.py line 148). -/
noncomputable def rms (audio : Audio) : ℝ :=
  Real.sqrt ((audio.map (fun x => x ^ 2)).sum / audio.length)

/-- `np.clip(x, lo, hi)` on one element: `min (max x lo) hi`. -/
def clip (lo hi x : ℝ) : ℝ := min (max x lo) hi

/-- `AudioPreprocessor.resample_audio` (audio_preprocessor.py lines 109-134):
returns the buffer unchanged when the rates agree, otherwise delegates to
`librosa.resample`, modelled by the abstract parameter `libResample`. -/
def resample_audio (libResample : Audio → Nat → Nat → Audio)
    (audio : Audio) (originalSr targetSr : Nat) : Audio :=
  if originalSr = targetSr then audio
  else libResample audio originalSr targetSr

/-- `AudioPreprocessor.normalize_audio` (audio_preprocessor.py lines 136-167):
if the RMS is zero the buffer is returned unchanged; otherwise each sample is
scaled by `target_rms / rms` with `target_rms = 10 ** (target_db / 20)` and the
result is clipped to `[-1, 1]`. -/
noncomputable def normalize_audio (audio : Audio) (target_db : ℝ) : Audio :=
  let r := rms audio
  if r = 0 then audio
  else
    let target_rms : ℝ := (10 : ℝ) ^ (target_db / 20)
    let normalized := audio.map (fun x => x * (target_rms / r))
    normalized.map (fun x => clip (-1) 1 x)

/-- `AudioPreprocessor.preprocess_audio` (audio_preprocessor.py lines 169-198).
The filesystem-dependent steps are abstracted: `valid` is the verdict of
`validate_audio_file` (only logged, never acted on) and `loadResult` is the
outcome of `load_audio` (`Except.error` when it raises).  The surrounding
`try/except` logs and re-raises, so an error outcome is propagated unchanged. -/
noncomputable def preprocess_audio (libResample : Audio → Nat → Nat → Audio)
    (valid : Bool) (loadResult : Except String (Audio × Nat))
    (targetSampleRate : Nat) : Except String (Audio × Nat) :=
  match valid, loadResult with
  | _, Except.error e => Except.error e
  | _, Except.ok (audio, originalSr) =>
    let audio1 := resample_audio libResample audio originalSr targetSampleRate
    let audio2 := normalize_audio audio1 (-20)
    Except.ok (audio2, targetSampleRate)

/-- `AudioPreprocessor.preprocess_audio_from_array`
(audio_preprocessor.py lines 200-222): resample then normalize. -/
noncomputable def preprocess_audio_from_array
    (libResample : Audio → Nat → Nat → Audio)
    (audio : Audio) (sampleRate targetSampleRate : Nat) : Audio × Nat :=
  let audio1 := resample_audio libResample audio sampleRate targetSampleRate
  let audio2 := normalize_audio audio1 (-20)
  (audio2, targetSampleRate)

end AudioPreprocessor

namespace SpeechModel

/-- `VietnameseSpeechModel.transcribe` (speech_model.py lines 184-216): the
inner wav2vec2/Whisper call's outcome is `innerResult`; the `try/except` around
it logs and re-raises, so the outcome passes through unchanged. -/
def transcribe (innerResult : Except String String) : Except String String :=
  match innerResult with
  | Except.ok t => Except.ok t
  | Except.error e => Except.error e

end SpeechModel

namespace MinimalApp

open AudioPreprocessor

/-- `total_chunks = len(audio) // chunk_samples + (1 if len(audio) % chunk_samples > 0 else 0)`
(streamlit_app_minimal.py line 40). -/
def totalChunks (len chunkSamples : Nat) : Nat :=
  len / chunkSamples + (if len % chunkSamples > 0 then 1 else 0)

/-- Python slice `l[start:stop]` for `0 ≤ start ≤ stop`. -/
def pySlice (l : Audio) (start stop : Nat) : Audio :=
  (l.drop start).take (stop - start)

/-- The chunk list produced by the loop of `transcribe_long_audio`
(streamlit_app_minimal.py lines 43-46): chunk `i` is
`audio[i*chunk_samples : min((i+1)*chunk_samples, len(audio))]`. -/
def audioChunks (audio : Audio) (sampleRate : Nat) : List Audio :=
  let chunkSamples := 30 * sampleRate
  (List.range (totalChunks audio.length chunkSamples)).map
    (fun i => pySlice audio (i * chunkSamples)
      (min ((i + 1) * chunkSamples) audio.length))

/-- `transcribe_long_audio` (streamlit_app_minimal.py lines 37-53) with the
speech model abstracted as `transcribeFn`: transcribe each non-empty chunk,
keep the stripped transcription when it is non-empty, join with spaces. -/
def transcribe_long_audio (transcribeFn : Audio → Nat → String)
    (audio : Audio) (sampleRate : Nat) : String :=
  let chunkSamples := 30 * sampleRate
  let transcriptions :=
    (List.range (totalChunks audio.length chunkSamples)).foldl
      (fun acc i =>
        let chunk := pySlice audio (i * chunkSamples)
          (min ((i + 1) * chunkSamples) audio.length)
        if chunk.length > 0 then
          let t := (transcribeFn chunk sampleRate).trim
          if t ≠ "" then acc ++ [t] else acc
        else acc) []
  String.intercalate " " transcriptions

/-- `transcribe_video` (streamlit_app_minimal.py lines 55-86).  The stages are
abstracted: `fileExists` is `os.path.exists`, `preprocessResult` the outcome of
`preprocess_audio`, `transcribeStage` the transcription stage's outcome on the
preprocessed audio, `postprocessFn` the text postprocessor.  The function-wide
`try/except` turns any propagated exception into `("", "❌ Error: " + str(e))`. -/
def transcribe_video (fileExists : Bool)
    (preprocessResult : Except String (Audio × Nat))
    (transcribeStage : Audio → Nat → Except String String)
    (postprocessFn : String → String) : String × String :=
  if fileExists = false then ("", "❌ Video file not found!")
  else
    match preprocessResult with
    | Except.error e => ("", "❌ Error: " ++ e)
    | Except.ok (audio, sampleRate) =>
      match transcribeStage audio sampleRate with
      | Except.error e => ("", "❌ Error: " ++ e)
      | Except.ok raw => (postprocessFn raw, "✅ Transcription completed!")

end MinimalApp

namespace TextPostprocessor

/-- Python's `\s` on ASCII text: the six whitespace characters. -/
def pyWs (c : Char) : Bool :=
  c = ' ' || c = '\t' || c = '\n' || c = '\x0d' || c = '\x0b' || c = '\x0c'

/-- Membership in the sentence-ending set `'.!?'`. -/
def isSentenceEnd (c : Char) : Bool := c = '.' || c = '!' || c = '?'

/-- The character class `[a-z]` of the second punctuation pattern. -/
def isLowerLetter (c : Char) : Bool := 'a' ≤ c && c ≤ 'z'

/-- The character class `[A-Z]` of the third punctuation pattern. -/
def isUpperLetter (c : Char) : Bool := 'A' ≤ c && c ≤ 'Z'

/-- `True` when the list starts with a sentence-ending character. -/
def headIsSentenceEnd : List Char → Bool
  | [] => false
  | c :: _ => isSentenceEnd c

/-- `re.sub(r'\s+([.!?])', r'\1', text)` (text_postprocessor.py line 17):
every whitespace run immediately preceding a sentence-ending character is
deleted.  Processing from the right, a whitespace character is dropped exactly
when what follows it (after the already-dropped whitespace) is `[.!?]`. -/
def removeSpaceBeforePunct : List Char → List Char
  | [] => []
  | c :: rest =>
    let acc := removeSpaceBeforePunct rest
    if pyWs c && headIsSentenceEnd acc then acc else c :: acc

/-- `re.sub(r'([.!?])\s*([X])', r'\1 \2', text)` with `[X]` the class `target`
(text_postprocessor.py lines 18-19): left-to-right, a sentence-ending character
followed by optional whitespace and a `target` letter is rewritten to the
punctuation, one space and the letter; scanning resumes after the match. -/
def addSpaceAfterPunct (target : Char → Bool) : List Char → List Char
  | [] => []
  | c :: rest =>
    if isSentenceEnd c then
      match h : rest.dropWhile pyWs with
      | l :: rest3 =>
        if target l then c :: ' ' :: l :: addSpaceAfterPunct target rest3
        else c :: addSpaceAfterPunct target rest
      | [] => c :: addSpaceAfterPunct target rest
    else c :: addSpaceAfterPunct target rest
termination_by l => l.length
decreasing_by
  all_goals simp_wf
  · refine lt_of_lt_of_le ?_
      (Nat.add_le_add_right (List.dropWhile_sublist (p := pyWs)).length_le 1)
    rw [h]
    simp only [List.length_cons]
    omega

/-- The `if text and not text[-1] in '.!?': text += '.'` step of
`add_punctuation` (text_postprocessor.py lines 120-121). -/
def appendPeriod (text : List Char) : List Char :=
  match text.getLast? with
  | none => text
  | some c => if isSentenceEnd c then text else text ++ ['.']

/-- `TextPostprocessor.add_punctuation` (text_postprocessor.py lines 109-133):
append a period when the text is non-empty and does not already end in `.!?`,
then apply the three `punctuation_patterns` substitutions in dictionary order. -/
def add_punctuation (text : List Char) : List Char :=
  addSpaceAfterPunct isUpperLetter
    (addSpaceAfterPunct isLowerLetter
      (removeSpaceBeforePunct (appendPeriod text)))

/-- `True` when the text ends with one of `.`, `!`, `?`. -/
def endsWithSentenceEnd (text : List Char) : Bool :=
  match text.getLast? with
  | none => false
  | some c => isSentenceEnd c

end TextPostprocessor

/-! ## Supporting lemmas about RMS normalization -/

open AudioPreprocessor

theorem clip_mem_unit (x : ℝ) : -1 ≤ clip (-1) 1 x ∧ clip (-1) 1 x ≤ 1 := by
  unfold clip
  exact ⟨le_min (le_max_right x (-1)) (by norm_num), min_le_right _ _⟩

theorem clip_eq_self {x : ℝ} (h : |x| ≤ 1) : clip (-1) 1 x = x := by
  obtain ⟨h1, h2⟩ := abs_le.mp h
  unfold clip
  rw [max_eq_left h1, min_eq_left h2]

theorem sumSq_nonneg (audio : Audio) : 0 ≤ (audio.map (fun x => x ^ 2)).sum := by
  refine List.sum_nonneg ?_
  intro y hy
  obtain ⟨z, _, rfl⟩ := List.mem_map.mp hy
  positivity

theorem mem_zero_of_rms_eq_zero {audio : Audio} (h : rms audio = 0) :
    ∀ x ∈ audio, x = 0 := by
  intro x hx
  have hlen : (0 : ℝ) < (audio.length : ℝ) := by
    exact_mod_cast List.length_pos.mpr (List.ne_nil_of_mem hx)
  have hs : 0 ≤ (audio.map (fun x => x ^ 2)).sum := sumSq_nonneg audio
  have hdiv : (audio.map (fun x => x ^ 2)).sum / (audio.length : ℝ) ≤ 0 :=
    Real.sqrt_eq_zero'.mp h
  have hdiv0 : (audio.map (fun x => x ^ 2)).sum / (audio.length : ℝ) = 0 :=
    le_antisymm hdiv (div_nonneg hs hlen.le)
  have hsum0 : (audio.map (fun x => x ^ 2)).sum = 0 := by
    rcases div_eq_zero_iff.mp hdiv0 with h0 | h0
    · exact h0
    · exact absurd h0 (ne_of_gt hlen)
  have hx2 : x ^ 2 ∈ audio.map (fun x => x ^ 2) := List.mem_map_of_mem _ hx
  have hle : x ^ 2 ≤ (audio.map (fun x => x ^ 2)).sum := by
    refine List.single_le_sum ?_ _ hx2
    intro y hy
    obtain ⟨z, _, rfl⟩ := List.mem_map.mp hy
    positivity
  rw [hsum0] at hle
  have hx0 : x ^ 2 = 0 := le_antisymm hle (sq_nonneg x)
  exact (pow_eq_zero_iff two_ne_zero).mp hx0

theorem rms_eq_zero_of_all_zero {audio : Audio} (h : ∀ x ∈ audio, x = 0) :
    rms audio = 0 := by
  unfold rms
  have hsum : (audio.map (fun x => x ^ 2)).sum = 0 := by
    refine List.sum_eq_zero ?_
    intro y hy
    obtain ⟨z, hz, rfl⟩ := List.mem_map.mp hy
    rw [h z hz]
    norm_num
  rw [hsum, zero_div, Real.sqrt_zero]

theorem normalize_audio_of_rms_eq_zero {audio : Audio} (target_db : ℝ)
    (h : rms audio = 0) : normalize_audio audio target_db = audio := by
  unfold normalize_audio
  simp [h]

theorem mem_normalize_audio_bounds (audio : Audio) (target_db : ℝ) :
    ∀ x ∈ normalize_audio audio target_db, -1 ≤ x ∧ x ≤ 1 := by
  intro x hx
  unfold normalize_audio at hx
  by_cases h : rms audio = 0
  · simp only [h, if_pos rfl] at hx
    have hx0 := mem_zero_of_rms_eq_zero h x hx
    rw [hx0]
    norm_num
  · simp only [if_neg h, List.map_map, List.mem_map] at hx
    obtain ⟨y, _, rfl⟩ := hx
    exact clip_mem_unit _

theorem list_abs_bounded (l : List ℝ) : ∃ B, ∀ x ∈ l, |x| ≤ B := by
  induction l with
  | nil => exact ⟨0, by simp⟩
  | cons a l ih =>
    obtain ⟨B, hB⟩ := ih
    refine ⟨max |a| B, ?_⟩
    intro x hx
    rcases List.mem_cons.mp hx with rfl | hx
    · exact le_max_left _ _
    · exact (hB x hx).trans (le_max_right _ _)

theorem rms_map_mul (l : Audio) (c : ℝ) :
    rms (l.map (fun x => x * c)) = |c| * rms l := by
  unfold rms
  rw [List.map_map, List.length_map]
  have h1 : ((fun x => x ^ 2) ∘ fun x => x * c) = fun x => c ^ 2 * x ^ 2 := by
    funext x
    simp only [Function.comp_apply]
    ring
  rw [h1, List.sum_map_mul_left, mul_div_assoc,
    Real.sqrt_mul (sq_nonneg c), Real.sqrt_sq_eq_abs]

theorem rms_singleton_one : rms ([1] : Audio) = 1 := by
  unfold rms
  norm_num

theorem preprocess_audio_ok_iff (libR : Audio → Nat → Nat → Audio) (valid : Bool)
    (audio : Audio) (originalSr targetSr : Nat) :
    preprocess_audio libR valid (Except.ok (audio, originalSr)) targetSr
      = Except.ok
          (normalize_audio (resample_audio libR audio originalSr targetSr) (-20),
           targetSr) := rfl

/-! ## Supporting lemmas about chunking -/

open MinimalApp

theorem totalChunks_eq_ceil (len cs : Nat) (h : 0 < cs) :
    totalChunks len cs = (len + cs - 1) / cs := by
  have h0 : len + cs - 1 = len + (cs - 1) := by omega
  rw [h0, Nat.add_div h]
  have h3 : (cs - 1) / cs = 0 := Nat.div_eq_of_lt (by omega)
  have h4 : (cs - 1) % cs = cs - 1 := Nat.mod_eq_of_lt (by omega)
  have h2 := Nat.mod_lt len h
  unfold totalChunks
  rw [h3, h4]
  split_ifs <;> omega

theorem le_totalChunks_mul (len cs : Nat) (h : 0 < cs) :
    len ≤ totalChunks len cs * cs := by
  have h1 := Nat.div_add_mod len cs
  have h2 := Nat.mod_lt len h
  have h3 : len / cs * cs = cs * (len / cs) := Nat.mul_comm _ _
  unfold totalChunks
  split_ifs with hmod <;> rw [Nat.add_mul] <;> omega

theorem mul_lt_of_lt_totalChunks {len cs i : Nat} (h : 0 < cs)
    (hi : i < totalChunks len cs) : i * cs < len := by
  have h1 := Nat.div_add_mod len cs
  have h2 := Nat.mod_lt len h
  unfold totalChunks at hi
  rcases Nat.eq_zero_or_pos (len % cs) with hr | hr
  · simp [hr] at hi
    have hi1 : i + 1 ≤ len / cs := hi
    have := Nat.mul_le_mul_right cs hi1
    have h3 : (i + 1) * cs = i * cs + cs := by ring
    have h4 : len / cs * cs = cs * (len / cs) := Nat.mul_comm _ _
    omega
  · rw [if_pos hr] at hi
    have hi1 : i ≤ len / cs := by omega
    have := Nat.mul_le_mul_right cs hi1
    have h4 : len / cs * cs = cs * (len / cs) := Nat.mul_comm _ _
    omega

theorem pySlice_chunk (l : Audio) (cs i : Nat) :
    pySlice l (i * cs) (min ((i + 1) * cs) l.length)
      = (l.drop (i * cs)).take cs := by
  unfold pySlice
  rw [List.take_eq_take, List.length_drop]
  have h : (i + 1) * cs = i * cs + cs := by ring
  omega

theorem join_range_chunks (cs : Nat) :
    ∀ (n : Nat) (l : Audio),
      ((List.range n).map (fun i => (l.drop (i * cs)).take cs)).flatten
        = l.take (n * cs) := by
  intro n
  induction n with
  | zero => intro l; simp
  | succ n ih =>
    intro l
    rw [List.range_succ_eq_map, List.map_cons, List.map_map, List.flatten_cons]
    have hfun : ∀ i ∈ List.range n,
        ((fun i => (l.drop (i * cs)).take cs) ∘ Nat.succ) i
          = ((l.drop cs).drop (i * cs)).take cs := by
      intro i _
      simp only [Function.comp_apply]
      rw [List.drop_drop, Nat.succ_mul, Nat.add_comm]
    rw [List.map_congr_left hfun, ih (l.drop cs)]
    have h1 : Nat.succ n * cs = cs + n * cs := by
      rw [Nat.succ_mul, Nat.add_comm]
    rw [h1, List.take_add]
    simp

theorem audioChunks_join (audio : Audio) (sampleRate : Nat)
    (h : 0 < sampleRate) : (audioChunks audio sampleRate).flatten = audio := by
  have hcs : 0 < 30 * sampleRate := by omega
  unfold audioChunks
  have hfun : ∀ i ∈ List.range (totalChunks audio.length (30 * sampleRate)),
      pySlice audio (i * (30 * sampleRate))
        (min ((i + 1) * (30 * sampleRate)) audio.length)
        = (audio.drop (i * (30 * sampleRate))).take (30 * sampleRate) := by
    intro i _
    exact pySlice_chunk audio (30 * sampleRate) i
  rw [List.map_congr_left hfun, join_range_chunks]
  exact List.take_of_length_le (le_totalChunks_mul _ _ hcs)

theorem chunk_length_pos (audio : Audio) (cs i : Nat) (hcs : 0 < cs)
    (hi : i < totalChunks audio.length cs) :
    0 < (pySlice audio (i * cs) (min ((i + 1) * cs) audio.length)).length := by
  have hlt : i * cs < audio.length := mul_lt_of_lt_totalChunks hcs hi
  rw [pySlice_chunk, List.length_take, List.length_drop]
  omega

theorem transcribe_long_audio_loop (tf : Audio → Nat → String) (audio : Audio)
    (sampleRate cs : Nat) :
    ∀ (l : List Nat) (acc : List String),
      (∀ i ∈ l,
        0 < (pySlice audio (i * cs) (min ((i + 1) * cs) audio.length)).length) →
      l.foldl (fun acc i =>
          let chunk := pySlice audio (i * cs) (min ((i + 1) * cs) audio.length)
          if chunk.length > 0 then
            let t := (tf chunk sampleRate).trim
            if t ≠ "" then acc ++ [t] else acc
          else acc) acc
        = acc ++ ((l.map (fun i =>
            (tf (pySlice audio (i * cs) (min ((i + 1) * cs) audio.length))
              sampleRate).trim)).filter (fun s => s ≠ "")) := by
  intro l
  induction l with
  | nil => intro acc _; simp
  | cons i l ih =>
    intro acc hne
    have hi := hne i (List.mem_cons_self i l)
    rw [List.foldl_cons, List.map_cons]
    simp only []
    rw [if_pos hi]
    by_cases ht : (tf (pySlice audio (i * cs) (min ((i + 1) * cs) audio.length))
        sampleRate).trim ≠ ""
    · rw [if_pos ht, ih _ (fun j hj => hne j (List.mem_cons_of_mem _ hj)),
        List.filter_cons_of_pos (by simpa using ht)]
      simp
    · rw [if_neg ht, ih _ (fun j hj => hne j (List.mem_cons_of_mem _ hj)),
        List.filter_cons_of_neg (by simpa using ht)]

/-! ## Claim theorems -/

/-- C2: every element of the array returned by `normalize_audio` — and hence
the audio component of any successful `preprocess_audio` result and of
`preprocess_audio_from_array` — lies in the interval `[-1, 1]`. -/
theorem C2_normalized_audio_in_unit_interval :
    (∀ (audio : Audio) (target_db : ℝ),
      ∀ x ∈ normalize_audio audio target_db, -1 ≤ x ∧ x ≤ 1)
    ∧ (∀ (libR : Audio → Nat → Nat → Audio) (valid : Bool)
        (loadResult : Except String (Audio × Nat)) (targetSr : Nat)
        (p : Audio × Nat),
        preprocess_audio libR valid loadResult targetSr = Except.ok p →
        ∀ x ∈ p.1, -1 ≤ x ∧ x ≤ 1)
    ∧ (∀ (libR : Audio → Nat → Nat → Audio) (audio : Audio)
        (sampleRate targetSr : Nat),
        ∀ x ∈ (preprocess_audio_from_array libR audio sampleRate targetSr).1,
          -1 ≤ x ∧ x ≤ 1) := by
  refine ⟨mem_normalize_audio_bounds, ?_, ?_⟩
  · intro libR valid loadResult targetSr p hp
    match loadResult with
    | Except.error e => exact absurd hp (by simp [preprocess_audio])
    | Except.ok (audio, originalSr) =>
      rw [preprocess_audio_ok_iff] at hp
      obtain rfl := (Except.ok.injEq _ _).mp hp
      exact mem_normalize_audio_bounds _ _
  · intro libR audio sampleRate targetSr
    exact mem_normalize_audio_bounds _ _

/-- Witness for C2 at the concrete buffer `[0]`. -/
theorem C2_witness :
    (0 : ℝ) ∈ normalize_audio [0] (-20) ∧ (-1 ≤ (0 : ℝ) ∧ (0 : ℝ) ≤ 1) := by
  have hz : normalize_audio [0] (-20) = [0] :=
    normalize_audio_of_rms_eq_zero (-20) (rms_eq_zero_of_all_zero (by simp))
  have hmem : (0 : ℝ) ∈ normalize_audio [0] (-20) := by rw [hz]; simp
  exact ⟨hmem, C2_normalized_audio_in_unit_interval.1 [0] (-20) 0 hmem⟩

/-- C4: when the RMS is nonzero and the scaled samples all have magnitude at
most 1 (the clip is a no-op), `normalize_audio` returns a buffer whose RMS is
exactly `10 ^ (target_db / 20)`; at the default `target_db = -20` that is
`0.1`. -/
theorem C4_normalize_rms_target (audio : Audio) (target_db : ℝ)
    (h : rms audio ≠ 0)
    (hcl : ∀ x ∈ audio, |x * ((10 : ℝ) ^ (target_db / 20) / rms audio)| ≤ 1) :
    rms (normalize_audio audio target_db) = (10 : ℝ) ^ (target_db / 20)
    ∧ (target_db = -20 → rms (normalize_audio audio target_db) = 1 / 10) := by
  have htr : (0 : ℝ) < (10 : ℝ) ^ (target_db / 20) :=
    Real.rpow_pos_of_pos (by norm_num) _
  have hr : 0 < rms audio := lt_of_le_of_ne (Real.sqrt_nonneg _) (Ne.symm h)
  have hcpos : 0 < (10 : ℝ) ^ (target_db / 20) / rms audio := div_pos htr hr
  have hmain : normalize_audio audio target_db
      = audio.map (fun x => x * ((10 : ℝ) ^ (target_db / 20) / rms audio)) := by
    simp only [normalize_audio, if_neg h]
    have hcong : ∀ y ∈ audio.map
        (fun x => x * ((10 : ℝ) ^ (target_db / 20) / rms audio)),
        clip (-1) 1 y = id y := by
      intro y hy
      obtain ⟨x, hx, rfl⟩ := List.mem_map.mp hy
      exact clip_eq_self (hcl x hx)
    rw [List.map_congr_left hcong, List.map_id]
  have hres : rms (normalize_audio audio target_db)
      = (10 : ℝ) ^ (target_db / 20) := by
    rw [hmain, rms_map_mul, abs_of_pos hcpos, div_mul_cancel₀ _ h]
  refine ⟨hres, ?_⟩
  intro h20
  rw [hres, h20, show ((-20 : ℝ) / 20) = -1 by norm_num, Real.rpow_neg_one]
  norm_num

/-- Witness for C4 at the concrete buffer `[1]` and default `target_db`. -/
theorem C4_witness :
    (rms ([1] : Audio) ≠ 0
      ∧ (∀ x ∈ ([1] : Audio),
          |x * ((10 : ℝ) ^ ((-20 : ℝ) / 20) / rms [1])| ≤ 1))
    ∧ (rms (normalize_audio [1] (-20)) = (10 : ℝ) ^ ((-20 : ℝ) / 20)
      ∧ ((-20 : ℝ) = -20 → rms (normalize_audio [1] (-20)) = 1 / 10)) := by
  have h1 : rms ([1] : Audio) ≠ 0 := by rw [rms_singleton_one]; norm_num
  have h2 : ∀ x ∈ ([1] : Audio),
      |x * ((10 : ℝ) ^ ((-20 : ℝ) / 20) / rms [1])| ≤ 1 := by
    intro x hx
    simp only [List.mem_singleton] at hx
    subst hx
    rw [rms_singleton_one, show ((-20 : ℝ) / 20) = -1 by norm_num,
      Real.rpow_neg_one, abs_of_nonneg (by norm_num)]
    norm_num
  exact ⟨⟨h1, h2⟩, C4_normalize_rms_target [1] (-20) h1 h2⟩

/-- C9: `normalize_audio` is total on silent input: on an all-zero buffer the
RMS is zero, the division is skipped and the buffer is returned unchanged;
whenever the RMS is zero the division branch is not taken, so no division by
zero occurs. -/
theorem C9_silent_input_total :
    ∀ (audio : Audio) (target_db : ℝ),
      ((∀ x ∈ audio, x = 0) →
        rms audio = 0 ∧ normalize_audio audio target_db = audio)
      ∧ (rms audio = 0 → normalize_audio audio target_db = audio) := by
  intro audio target_db
  constructor
  · intro h
    have h0 := rms_eq_zero_of_all_zero h
    exact ⟨h0, normalize_audio_of_rms_eq_zero target_db h0⟩
  · exact normalize_audio_of_rms_eq_zero target_db

/-- Witness for C9 at the concrete silent buffer `[0, 0]`. -/
theorem C9_witness :
    (∀ x ∈ ([0, 0] : Audio), x = 0) ∧
      (rms [0, 0] = 0 ∧ normalize_audio [0, 0] (-20) = [0, 0]) := by
  have h : ∀ x ∈ ([0, 0] : Audio), x = 0 := by simp
  exact ⟨h, (C9_silent_input_total [0, 0] (-20)).1 h⟩

/-- C7: `resample_audio` and `normalize_audio` are deterministic functions of
their arguments — two runs on equal inputs return equal outputs — and every
output buffer is bounded. -/
theorem C7_deterministic_bounded :
    ∀ (libR : Audio → Nat → Nat → Audio) (a1 a2 : Audio)
      (o1 o2 t1 t2 : Nat) (db1 db2 : ℝ),
      a1 = a2 → o1 = o2 → t1 = t2 → db1 = db2 →
      resample_audio libR a1 o1 t1 = resample_audio libR a2 o2 t2
      ∧ normalize_audio a1 db1 = normalize_audio a2 db2
      ∧ (∃ B, ∀ x ∈ resample_audio libR a1 o1 t1, |x| ≤ B)
      ∧ (∃ B, ∀ x ∈ normalize_audio a1 db1, |x| ≤ B) := by
  intro libR a1 a2 o1 o2 t1 t2 db1 db2 ha ho ht hdb
  subst ha; subst ho; subst ht; subst hdb
  exact ⟨rfl, rfl, list_abs_bounded _, list_abs_bounded _⟩

/-- Witness for C7 at concrete arguments. -/
theorem C7_witness :
    (([1] : Audio) = [1] ∧ (1 : Nat) = 1 ∧ (2 : Nat) = 2 ∧ (-20 : ℝ) = -20)
    ∧ (resample_audio (fun a _ _ => a) [1] 1 2
          = resample_audio (fun a _ _ => a) [1] 1 2
        ∧ normalize_audio [1] (-20) = normalize_audio [1] (-20)
        ∧ (∃ B, ∀ x ∈ resample_audio (fun a _ _ => a) ([1] : Audio) 1 2, |x| ≤ B)
        ∧ (∃ B, ∀ x ∈ normalize_audio [1] (-20), |x| ≤ B)) :=
  ⟨⟨rfl, rfl, rfl, rfl⟩,
    C7_deterministic_bounded (fun a _ _ => a) [1] [1] 1 1 2 2 (-20) (-20)
      rfl rfl rfl rfl⟩

/-- C5: on a successfully loaded file, `preprocess_audio` returns exactly the
normalization of the resampling of the loaded audio, paired with the target
sample rate (whose default is 16000), independently of the file's original
sample rate. -/
theorem C5_preprocess_pipeline_order :
    (∀ (libR : Audio → Nat → Nat → Audio) (valid : Bool) (audio : Audio)
      (originalSr targetSr : Nat),
      preprocess_audio libR valid (Except.ok (audio, originalSr)) targetSr
        = Except.ok
            (normalize_audio (resample_audio libR audio originalSr targetSr)
              (-20),
             targetSr))
    ∧ defaultTargetSampleRate = 16000 :=
  ⟨fun libR valid audio originalSr targetSr =>
    preprocess_audio_ok_iff libR valid audio originalSr targetSr, rfl⟩

/-- C6: the result of `preprocess_audio` does not depend on the verdict of
`validate_audio_file`: a failed validation is only logged, and the pipeline
proceeds identically. -/
theorem C6_validation_verdict_ignored :
    ∀ (libR : Audio → Nat → Nat → Audio) (v1 v2 : Bool)
      (loadResult : Except String (Audio × Nat)) (targetSr : Nat),
      preprocess_audio libR v1 loadResult targetSr
        = preprocess_audio libR v2 loadResult targetSr := by
  intro libR v1 v2 loadResult targetSr
  cases loadResult <;> rfl

/-- C3 counterexample: at the concrete erroring inputs below, `preprocess_audio`
and the model's `transcribe` propagate the exception (`Except.error`) to their
caller instead of returning a None-or-message result, refuting the claim that
they never raise. -/
theorem C3_counterexample :
    preprocess_audio (fun a _ _ => a) true (Except.error "load failed") 16000
      = Except.error "load failed"
    ∧ SpeechModel.transcribe (Except.error "inference failed")
      = Except.error "inference failed" := ⟨rfl, rfl⟩

/-- C3 amended: every operation catches and logs internal errors, but
`preprocess_audio` and the model's `transcribe` re-raise them; the exception
is caught only at the top level by `transcribe_video`, which returns the pair
`("", "❌ Error: " ++ message)` to its caller. -/
theorem C3_amended_error_propagation :
    (∀ (libR : Audio → Nat → Nat → Audio) (valid : Bool) (e : String)
      (targetSr : Nat),
      preprocess_audio libR valid (Except.error e) targetSr = Except.error e)
    ∧ (∀ e : String, SpeechModel.transcribe (Except.error e) = Except.error e)
    ∧ (∀ t : String, SpeechModel.transcribe (Except.ok t) = Except.ok t)
    ∧ (∀ (e : String) (ts : Audio → Nat → Except String String)
        (pf : String → String),
        MinimalApp.transcribe_video true (Except.error e) ts pf
          = ("", "❌ Error: " ++ e))
    ∧ (∀ (audio : Audio) (sampleRate : Nat) (e : String) (pf : String → String),
        MinimalApp.transcribe_video true (Except.ok (audio, sampleRate))
            (fun _ _ => Except.error e) pf
          = ("", "❌ Error: " ++ e)) :=
  ⟨fun _ _ _ _ => rfl, fun _ => rfl, fun _ => rfl, fun _ _ _ => rfl,
    fun _ _ _ _ => rfl⟩

/-- C1: for audio longer than 30 seconds, `transcribe_long_audio` splits it
into exactly `ceil(len / (30 * sample_rate))` consecutive non-overlapping
chunks; chunk `i` is the slice `[i*30*sr, min((i+1)*30*sr, len))`, every chunk
has at most `30 * sample_rate` samples, and the concatenation of all chunks is
the original buffer. -/
theorem C1_chunking (audio : Audio) (sampleRate : Nat)
    (h1 : 0 < sampleRate) (h2 : 30 * sampleRate < audio.length) :
    (audioChunks audio sampleRate).length
      = (audio.length + 30 * sampleRate - 1) / (30 * sampleRate)
    ∧ (∀ i, i < (audioChunks audio sampleRate).length →
        (audioChunks audio sampleRate)[i]? =
          some (pySlice audio (i * (30 * sampleRate))
            (min ((i + 1) * (30 * sampleRate)) audio.length)))
    ∧ (∀ chunk ∈ audioChunks audio sampleRate, chunk.length ≤ 30 * sampleRate)
    ∧ (audioChunks audio sampleRate).flatten = audio := by
  have hcs : 0 < 30 * sampleRate := by omega
  refine ⟨?_, ?_, ?_, audioChunks_join audio sampleRate h1⟩
  · unfold audioChunks
    rw [List.length_map, List.length_range]
    exact totalChunks_eq_ceil _ _ hcs
  · intro i hi
    unfold audioChunks at hi ⊢
    rw [List.length_map, List.length_range] at hi
    rw [List.getElem?_map, List.getElem?_range hi]
    rfl
  · intro chunk hchunk
    unfold audioChunks at hchunk
    obtain ⟨i, _, rfl⟩ := List.mem_map.mp hchunk
    rw [pySlice_chunk, List.length_take]
    omega

/-- Witness for C1 at a 31-sample buffer with `sample_rate = 1`. -/
theorem C1_witness :
    (0 < 1 ∧ 30 * 1 < (List.replicate 31 (0 : ℝ)).length)
    ∧ ((audioChunks (List.replicate 31 (0 : ℝ)) 1).length
        = ((List.replicate 31 (0 : ℝ)).length + 30 * 1 - 1) / (30 * 1)
      ∧ (∀ i, i < (audioChunks (List.replicate 31 (0 : ℝ)) 1).length →
          (audioChunks (List.replicate 31 (0 : ℝ)) 1)[i]? =
            some (pySlice (List.replicate 31 (0 : ℝ)) (i * (30 * 1))
              (min ((i + 1) * (30 * 1)) (List.replicate 31 (0 : ℝ)).length)))
      ∧ (∀ chunk ∈ audioChunks (List.replicate 31 (0 : ℝ)) 1,
          chunk.length ≤ 30 * 1)
      ∧ (audioChunks (List.replicate 31 (0 : ℝ)) 1).flatten
          = List.replicate 31 (0 : ℝ)) := by
  have hh : 30 * 1 < (List.replicate 31 (0 : ℝ)).length := by
    rw [List.length_replicate]
    omega
  exact ⟨⟨by omega, hh⟩, C1_chunking _ 1 (by omega) hh⟩

/-- C8: `transcribe_long_audio` returns the per-chunk transcriptions, each
stripped of surrounding whitespace, those empty after stripping dropped, the
rest joined in chunk order by single spaces. -/
theorem C8_stripped_join (tf : Audio → Nat → String) (audio : Audio)
    (sampleRate : Nat) (h : 0 < sampleRate) :
    transcribe_long_audio tf audio sampleRate
      = String.intercalate " "
          (((audioChunks audio sampleRate).map
            (fun c => (tf c sampleRate).trim)).filter (fun s => s ≠ "")) := by
  have hcs : 0 < 30 * sampleRate := by omega
  simp only [transcribe_long_audio, audioChunks]
  rw [transcribe_long_audio_loop tf audio sampleRate (30 * sampleRate) _ []
    (fun i hi =>
      chunk_length_pos audio (30 * sampleRate) i hcs (List.mem_range.mp hi))]
  rw [List.nil_append, List.map_map]
  rfl

/-- Witness for C8 at a 31-sample buffer with `sample_rate = 1` and a model
that answers a blank string on the 1-sample chunk. -/
theorem C8_witness :
    0 < 1
    ∧ transcribe_long_audio
        (fun c _ => if c.length = 1 then "  " else " one two ")
        (List.replicate 31 (0 : ℝ)) 1
      = String.intercalate " "
          (((audioChunks (List.replicate 31 (0 : ℝ)) 1).map
            (fun c => ((fun (c : Audio) (_ : Nat) =>
              if c.length = 1 then "  " else " one two ") c 1).trim)).filter
            (fun s => s ≠ "")) :=
  ⟨by omega,
    C8_stripped_join (fun c _ => if c.length = 1 then "  " else " one two ")
      (List.replicate 31 (0 : ℝ)) 1 (by omega)⟩

/-! ## Supporting lemmas about punctuation -/

open TextPostprocessor

theorem endsWith_congr {l1 l2 : List Char} (h : l1.getLast? = l2.getLast?) :
    endsWithSentenceEnd l1 = endsWithSentenceEnd l2 := by
  unfold endsWithSentenceEnd
  rw [h]

theorem endsWith_cons_of_ne_nil (c : Char) {l : List Char} (h : l ≠ []) :
    endsWithSentenceEnd (c :: l) = endsWithSentenceEnd l := by
  match l with
  | [] => exact absurd rfl h
  | x :: xs =>
    unfold endsWithSentenceEnd
    rw [List.getLast?_cons_cons]

theorem ne_nil_of_endsWith {l : List Char} (h : endsWithSentenceEnd l = true) :
    l ≠ [] := by
  intro h0
  subst h0
  simp [endsWithSentenceEnd] at h

theorem endsWith_iff {l : List Char} :
    endsWithSentenceEnd l = true ↔
      ∃ c, l.getLast? = some c ∧ isSentenceEnd c = true := by
  unfold endsWithSentenceEnd
  match h : l.getLast? with
  | none => simp
  | some c => simp

theorem pyWs_not_sentenceEnd {c : Char} (h : pyWs c = true) :
    isSentenceEnd c = false := by
  simp only [pyWs, Bool.or_eq_true, decide_eq_true_eq] at h
  rcases h with ((((h | h) | h) | h) | h) | h <;> subst h <;> decide

theorem lower_not_sentenceEnd {c : Char} (h : isLowerLetter c = true) :
    isSentenceEnd c = false := by
  simp only [isLowerLetter, Bool.and_eq_true, decide_eq_true_eq] at h
  simp only [isSentenceEnd, Bool.or_eq_false_iff, decide_eq_false_iff_not]
  refine ⟨⟨?_, ?_⟩, ?_⟩ <;> rintro rfl <;> revert h <;> decide

theorem upper_not_sentenceEnd {c : Char} (h : isUpperLetter c = true) :
    isSentenceEnd c = false := by
  simp only [isUpperLetter, Bool.and_eq_true, decide_eq_true_eq] at h
  simp only [isSentenceEnd, Bool.or_eq_false_iff, decide_eq_false_iff_not]
  refine ⟨⟨?_, ?_⟩, ?_⟩ <;> rintro rfl <;> revert h <;> decide

theorem appendPeriod_endsWith {text : List Char} (h : text ≠ []) :
    endsWithSentenceEnd (appendPeriod text) = true := by
  unfold appendPeriod
  match hl : text.getLast? with
  | none =>
    rw [List.getLast?_eq_none_iff] at hl
    exact absurd hl h
  | some c =>
    show endsWithSentenceEnd
      (if isSentenceEnd c = true then text else text ++ ['.']) = true
    by_cases hc : isSentenceEnd c = true
    · rw [if_pos hc]
      exact endsWith_iff.mpr ⟨c, hl, hc⟩
    · rw [if_neg hc]
      exact endsWith_iff.mpr ⟨'.', List.getLast?_concat _, by decide⟩

theorem removeSpaceBeforePunct_endsWith :
    ∀ {l : List Char}, endsWithSentenceEnd l = true →
      endsWithSentenceEnd (removeSpaceBeforePunct l) = true := by
  intro l
  induction l with
  | nil => intro h; simp [endsWithSentenceEnd] at h
  | cons c rest ih =>
    intro h
    by_cases hr : rest = []
    · subst hr
      simp only [removeSpaceBeforePunct, headIsSentenceEnd, Bool.and_false,
        if_neg]
      exact h
    · rw [endsWith_cons_of_ne_nil c hr] at h
      have hacc := ih h
      have hacc_ne := ne_nil_of_endsWith hacc
      simp only [removeSpaceBeforePunct]
      split_ifs with hcond
      · exact hacc
      · rw [endsWith_cons_of_ne_nil c hacc_ne]
        exact hacc

theorem addSpaceAfterPunct_endsWith (target : Char → Bool)
    (htarget : ∀ c, target c = true → isSentenceEnd c = false) :
    ∀ (n : Nat) (l : List Char), l.length ≤ n →
      endsWithSentenceEnd l = true →
      endsWithSentenceEnd (addSpaceAfterPunct target l) = true := by
  intro n
  induction n with
  | zero =>
    intro l hl h
    have h0 : l = [] := List.length_eq_zero.mp (Nat.le_zero.mp hl)
    subst h0
    simp [endsWithSentenceEnd] at h
  | succ n ih =>
    intro l hl h
    match l with
    | [] => simp [endsWithSentenceEnd] at h
    | c :: rest =>
      simp only [List.length_cons, Nat.add_le_add_iff_right] at hl
      by_cases hc : isSentenceEnd c = true
      · rw [addSpaceAfterPunct, if_pos hc]
        split
        · rename_i l' rest3 hdrop
          have hrest_ne : rest ≠ [] := by
            intro h0
            subst h0
            simp at hdrop
          have h' : endsWithSentenceEnd rest = true := by
            rw [endsWith_cons_of_ne_nil c hrest_ne] at h
            exact h
          have hsplit : rest = rest.takeWhile pyWs ++ (l' :: rest3) := by
            rw [← hdrop]
            exact (List.takeWhile_append_dropWhile _ _).symm
          split_ifs with ht
          · have hl'ne : isSentenceEnd l' = false := htarget l' ht
            have hrest3_ne : rest3 ≠ [] := by
              intro h0
              subst h0
              have hlast : rest.getLast? = some l' := by
                rw [hsplit]
                exact List.getLast?_concat _
              obtain ⟨p, hp1, hp2⟩ := endsWith_iff.mp h'
              rw [hlast] at hp1
              obtain rfl : p = l' := (Option.some.injEq _ _).mp hp1.symm
              rw [hl'ne] at hp2
              exact Bool.false_ne_true hp2
            have h3 : endsWithSentenceEnd rest3 = true := by
              have e1 : rest.getLast? = (l' :: rest3).getLast? := by
                rw [hsplit]
                exact List.getLast?_append_of_ne_nil _ (by simp)
              have e2 : (l' :: rest3).getLast? = rest3.getLast? := by
                match rest3, hrest3_ne with
                | x :: xs, _ => exact List.getLast?_cons_cons
              rw [← endsWith_congr (e1.trans e2)]
              exact h'
            have hlen3 : rest3.length ≤ n := by
              have := congrArg List.length hsplit
              simp only [List.length_append, List.length_cons] at this
              omega
            have hrec := ih rest3 hlen3 h3
            have hne := ne_nil_of_endsWith hrec
            rw [endsWith_cons_of_ne_nil c (by simp),
              endsWith_cons_of_ne_nil ' ' (by simp),
              endsWith_cons_of_ne_nil l' hne]
            exact hrec
          · have h2 := ih rest hl h'
            rw [endsWith_cons_of_ne_nil c (ne_nil_of_endsWith h2)]
            exact h2
        · rename_i hdrop
          by_cases hr : rest = []
          · subst hr
            simp only [addSpaceAfterPunct]
            exact h
          · have h' : endsWithSentenceEnd rest = true := by
              rw [endsWith_cons_of_ne_nil c hr] at h
              exact h
            obtain ⟨p, hp1, hp2⟩ := endsWith_iff.mp h'
            have hp_mem : p ∈ rest := by
              obtain ⟨hne, hpe⟩ :=
                List.mem_getLast?_eq_getLast (Option.mem_def.mpr hp1)
              rw [hpe]
              exact List.getLast_mem hne
            have hp_ws : pyWs p = true :=
              List.dropWhile_eq_nil_iff.mp hdrop p hp_mem
            rw [pyWs_not_sentenceEnd hp_ws] at hp2
            exact absurd hp2 Bool.false_ne_true
      · rw [addSpaceAfterPunct, if_neg hc]
        by_cases hr : rest = []
        · subst hr
          simp only [endsWithSentenceEnd, List.getLast?_singleton] at h
          exact absurd h hc
        · have h' : endsWithSentenceEnd rest = true := by
            rw [endsWith_cons_of_ne_nil c hr] at h
            exact h
          have h2 := ih rest hl h'
          rw [endsWith_cons_of_ne_nil c (ne_nil_of_endsWith h2)]
          exact h2

/-- C10: for every non-empty input, the output of `add_punctuation` ends with
one of '.', '!', '?': a period is appended when the input's last character is
not already one of those three, and the pattern substitutions never remove the
trailing sentence-ending character. -/
theorem C10_ends_with_sentence_end (text : List Char) (h : text ≠ []) :
    endsWithSentenceEnd (add_punctuation text) = true
    ∧ (∀ c, text.getLast? = some c → isSentenceEnd c = false →
        appendPeriod text = text ++ ['.']) := by
  constructor
  · unfold add_punctuation
    exact addSpaceAfterPunct_endsWith isUpperLetter
      (fun c hc => upper_not_sentenceEnd hc) _ _ (Nat.le_refl _)
      (addSpaceAfterPunct_endsWith isLowerLetter
        (fun c hc => lower_not_sentenceEnd hc) _ _ (Nat.le_refl _)
        (removeSpaceBeforePunct_endsWith (appendPeriod_endsWith h)))
  · intro c hc hne
    simp [appendPeriod, hc, hne]

/-- Witness for C10 at the concrete input `"abc"`. -/
theorem C10_witness :
    (['a', 'b', 'c'] : List Char) ≠ []
    ∧ (endsWithSentenceEnd (add_punctuation ['a', 'b', 'c']) = true
      ∧ (∀ c, (['a', 'b', 'c'] : List Char).getLast? = some c →
          isSentenceEnd c = false →
          appendPeriod ['a', 'b', 'c'] = ['a', 'b', 'c'] ++ ['.'])) :=
  ⟨by decide, C10_ends_with_sentence_end ['a', 'b', 'c'] (by decide)⟩

end SpeechToText
